import Mathlib

/-!
# Verification of the git-appraise review core

A shallow embedding, in Lean 4, of the review-metadata core of the
git-appraise tool: the comment-thread reconstruction and tri-state
resolution-aggregation algorithm (`review/review.go`) and the parts of the
git collaborator layer with real logic (`repository/git.go`).

External processes (the `git` command line) are modelled by passing their
results as explicit arguments: a call to `runGitCommand` becomes an
`Except String String` value (trimmed stdout on success, the error text on
failure), and byte streams become `List Char` (one `Char` per byte).
Go's `*bool` is `Option Bool`, Go maps are association lists iterated in
insertion order (Go's map iteration order is unspecified; none of the
verified properties depend on it).
-/

/-- A git note: one line of an annotation blob (`type Note []byte`). -/
abbrev Note := String

/-- A decoded review comment (`comment.Comment`).  The `comment` package is
not part of the embedded sources; its fields are those the embedded code
reads, as documented by the data model: `Author`, `Timestamp` (epoch seconds
as text), `Description`, `Parent` (identity of the parent comment, empty for
a root) and the tri-state `Resolved` verdict. -/
structure Comment where
  author : String
  timestamp : String
  description : String
  parent : String
  resolved : Option Bool
deriving DecidableEq, Repr

/-- A node of the comment forest (`review.CommentThread`): one comment, its
owned children, and the derived aggregate `Resolved` tri-state. -/
structure CommentThread where
  comment : Comment
  children : List CommentThread
  resolved : Option Bool
deriving Repr

/-- A review request (`request.Request`), with the fields the embedded code
reads: the ref under review, the target ref and a description. -/
structure Request where
  reviewRef : String
  targetRef : String
  description : String
deriving DecidableEq, Repr

/-- The state of a single code review (`review.Review`). -/
structure Review where
  revision : String
  request : Request
  comments : List CommentThread
  resolved : Option Bool
  submitted : Bool
deriving Repr

/-! ## repository/git.go: simple collaborator wrappers -/

/-- The outcome of running an external git command
(`runGitCommandRaw`): it ran and exited successfully, it ran and exited
with a nonzero status (`*exec.ExitError`), or it failed in some other way
(for example, the process could not be started). -/
inductive GitCommandResult where
  | success (stdout stderr : String)
  | exitError (stdout stderr : String)
  | startError (msg : String)
deriving DecidableEq, Repr

/-- `IsAncestor` (git.go): runs `git merge-base --is-ancestor` and maps the
outcome: success means the ancestry holds, a nonzero exit means it does not,
and any other failure is reported as an error (with the ancestry answer
`false`). -/
def IsAncestor (result : GitCommandResult) : Bool × Option String :=
  match result with
  | .success _ _ => (true, none)
  | .exitError _ _ => (false, none)
  | .startError m =>
      (false, some ("Error while trying to determine commit ancestry: " ++ m))

/-- `GetNotes` (git.go): reads the notes attached to one revision.  The
argument is the result of the `git notes ... show` command.  On failure the
code assumes the revision simply has no notes and returns the empty list;
on success it splits the trimmed stdout into lines, one note per line. -/
def GetNotes (rawResult : Except String String) : List Note :=
  match rawResult with
  | .error _ => []
  | .ok rawNotes => rawNotes.splitOn "\n"

/-- Everything after the first space of `s`, if `s` contains a space
(the second component of Go's `strings.SplitN(s, " ", 2)` when it has
length 2). -/
def afterFirstSpace : List Char → Option (List Char)
  | [] => none
  | c :: cs => if c = ' ' then some cs else afterFirstSpace cs

/-- `ListNotedRevisions` (git.go): lists the revisions annotated under a
notes ref.  `listResult` is the result of `git notes ... list`;
`catFileType` gives, for each object hash, the result of
`git cat-file -t <hash>`.  A failing list command yields the empty list;
each well-formed list line contributes its object hash when that object is
a known commit (notes on unknown or non-commit objects are ignored). -/
def ListNotedRevisions (listResult : Except String String)
    (catFileType : String → Except String String) : List String :=
  match listResult with
  | .error _ => []
  | .ok out =>
      (out.splitOn "\n").foldl
        (fun revisions notePair =>
          match afterFirstSpace notePair.toList with
          | none => revisions
          | some objHashChars =>
              let objHash := String.mk objHashChars
              match catFileType objHash with
              | .error _ => revisions
              | .ok objType =>
                  if objType = "commit" then revisions ++ [objHash]
                  else revisions)
        []

/-! ## review/review.go: timestamp formatting -/

/-- Go's `strconv.ParseInt(s, 10, 64)` (also `strconv.Atoi` on a 64-bit
platform): an optional `+`/`-` sign followed by at least one decimal digit,
rejecting anything else and values outside the signed 64-bit range. -/
def goParseInt (s : List Char) : Option Int :=
  match s with
  | [] => none
  | c :: rest =>
      let signDigits : Bool × List Char :=
        if c = '+' then (false, rest)
        else if c = '-' then (true, rest)
        else (false, c :: rest)
      let neg := signDigits.1
      let digits := signDigits.2
      if digits.isEmpty then none
      else if digits.all Char.isDigit then
        let n : Nat := digits.foldl (fun acc d => acc * 10 + (d.toNat - '0'.toNat)) 0
        if neg then
          if n ≤ 2 ^ 63 then some (-(n : Int)) else none
        else
          if n < 2 ^ 63 then some (n : Int) else none
      else none

/-- `reformatTimestamp` (review.go): when the timestamp string parses as a
base-10 64-bit integer, render it as a human-readable date; otherwise leave
it alone.  The rendering (`time.Unix(v, 0).Format(time.UnixDate)`) is a call
into the Go standard library, modelled as an explicit function argument. -/
def reformatTimestamp (unixDate : Int → String) (timestamp : String) : String :=
  match goParseInt timestamp.toList with
  | none => timestamp
  | some v => unixDate v

/-! ## review/review.go: thread reconstruction -/

/-- Lookup in an association list, standing in for a Go map read
(`m[k]` with its `ok` bit). -/
def assocFind (key : String) : List (String × α) → Option α
  | [] => none
  | (k, v) :: rest => if k = key then some v else assocFind key rest

/-- The first loop of `loadComments` (review.go): build the map from comment
identity to a fresh thread node (`CommentThread{Comment: comment}`, with no
children and an unset status), one node per identity. -/
def buildThreadsByHash (commentsByHash : List (String × Comment))
    (threadsByHash : List (String × CommentThread)) :
    List (String × CommentThread) :=
  match commentsByHash with
  | [] => threadsByHash
  | p :: rest =>
      match assocFind p.1 threadsByHash with
      | some _ => buildThreadsByHash rest threadsByHash
      | none => buildThreadsByHash rest (threadsByHash ++ [(p.1, ⟨p.2, [], none⟩)])

/-- The second loop of `loadComments` (review.go): a node with an empty
`Parent` is appended to the forest roots.  For a node with a nonempty
`Parent`, the code looks the parent up in the map and appends the node to
the children of the *copy* the map read produced (Go maps yield values, not
references); the mutated copy is discarded, so the stored parent node is
unchanged and the child node is added to neither the roots nor any stored
node. -/
def collectRoots (entries threadsByHash : List (String × CommentThread))
    (threads : List CommentThread) : List CommentThread :=
  match entries with
  | [] => threads
  | p :: rest =>
      let thread := p.2
      if thread.comment.parent = "" then
        collectRoots rest threadsByHash (threads ++ [thread])
      else
        match assocFind thread.comment.parent threadsByHash with
        | some parent =>
            let _copy : CommentThread :=
              { parent with children := parent.children ++ [thread] }
            collectRoots rest threadsByHash threads
        | none => collectRoots rest threadsByHash threads

/-- `loadComments` (review.go), given the decoded comments keyed by identity
(the result of the `comment.ParseAllValid` collaborator): build one thread
node per identity, then walk over the nodes building the forest. -/
def loadComments (commentsByHash : List (String × Comment)) : List CommentThread :=
  let threadsByHash := buildThreadsByHash commentsByHash []
  collectRoots threadsByHash threadsByHash []

/-! ## review/review.go: resolution aggregation

`updateThreadsStatus` sorts the threads by timestamp and folds the
presence-aware conjunction over the per-thread statuses computed by
`updateResolvedStatus`; in the Go code the running conjunction lives in the
local `noUnresolved` and `result` points at it, so the returned value is
`some` of the conjunction of every non-unset thread status as soon as one
thread has a non-unset status, and `none` otherwise.  The functions below
return the status value the Go code stores in the `Resolved` fields. -/

/-- The comparison of `byTimestamp.Less` (review.go). -/
def tsLess (a b : CommentThread) : Prop :=
  a.comment.timestamp < b.comment.timestamp

instance : DecidableRel tsLess := fun a b =>
  inferInstanceAs (Decidable (a.comment.timestamp < b.comment.timestamp))

mutual

/-- Termination measure: the number of nodes in a thread. -/
def threadWeight : CommentThread → Nat
  | .mk _ children _ => forestWeight children + 1

/-- Termination measure: the number of nodes in a forest. -/
def forestWeight : List CommentThread → Nat
  | [] => 0
  | t :: rest => threadWeight t + forestWeight rest

end

theorem threadWeight_eq (t : CommentThread) :
    threadWeight t = forestWeight t.children + 1 := by
  cases t
  simp [threadWeight]

theorem forestWeight_perm {l₁ l₂ : List CommentThread} (h : l₁.Perm l₂) :
    forestWeight l₁ = forestWeight l₂ := by
  induction h with
  | nil => rfl
  | cons x _ ih => simp [forestWeight, ih]
  | swap x y l => simp [forestWeight]; omega
  | trans _ _ ih₁ ih₂ => omega

mutual

/-- `updateResolvedStatus` (review.go): the value stored into the thread's
`Resolved` field — the truth table over the children's aggregate and the
thread's own comment verdict. -/
def updateResolvedStatus : CommentThread → Option Bool
  | .mk comment children _ =>
      match updateThreadsStatus children with
      | none => comment.resolved
      | some false => some false
      | some true =>
          match comment.resolved with
          | some true => some true
          | _ => none
termination_by t => 3 * threadWeight t
decreasing_by
  simp [threadWeight_eq, forestWeight]
  omega

/-- `updateThreadsStatus` (review.go): sort the threads by timestamp, then
fold the presence-aware conjunction over their statuses. -/
def updateThreadsStatus (threads : List CommentThread) : Option Bool :=
  statusFold (List.insertionSort tsLess threads) true false
termination_by 3 * forestWeight threads + 2
decreasing_by
  rw [forestWeight_perm (List.perm_insertionSort tsLess threads)]
  omega

/-- The loop of `updateThreadsStatus`: `noUnresolved` is the running
conjunction, `anyPresent` records whether `result` has been pointed at it. -/
def statusFold : List CommentThread → Bool → Bool → Option Bool
  | [], noUnresolved, anyPresent =>
      if anyPresent then some noUnresolved else none
  | t :: rest, noUnresolved, anyPresent =>
      match updateResolvedStatus t with
      | none => statusFold rest noUnresolved anyPresent
      | some b => statusFold rest (noUnresolved && b) true
termination_by l _ _ => 3 * forestWeight l + 1
decreasing_by
  all_goals simp [forestWeight, threadWeight_eq]
  all_goals omega

end

/-! ## Observation predicates used to state the properties -/

mutual

/-- Does the node's own comment, or any descendant's, carry a non-unset
verdict? -/
def threadHasVerdict : CommentThread → Bool
  | .mk c children _ => c.resolved.isSome || forestHasVerdict children

/-- Does any node of the forest carry a non-unset verdict? -/
def forestHasVerdict : List CommentThread → Bool
  | [] => false
  | t :: rest => threadHasVerdict t || forestHasVerdict rest

end

mutual

/-- Does the comment `c` label the given node or any of its descendants? -/
def commentInThread (c : Comment) : CommentThread → Bool
  | .mk c2 children _ => (if c = c2 then true else false) || commentInForest c children

/-- Does the comment `c` label any node of the forest? -/
def commentInForest (c : Comment) : List CommentThread → Bool
  | [] => false
  | t :: rest => commentInThread c t || commentInForest c rest

end

/-! ## review/review.go: GetCurrent -/

/-- The error text of `GetCurrent` (review.go):
`"There are %d open reviews for the ref \"%s\""`. -/
def getCurrentError (count : Nat) (reviewRef : String) : String :=
  "There are " ++ toString count ++ " open reviews for the ref \x22" ++
    reviewRef ++ "\x22"

/-- `GetCurrent` (review.go): among the open reviews, select those whose
request's `ReviewRef` equals the current HEAD ref.  No match is not an
error (`ok none`); exactly one match returns that review; several matches
are reported as an error naming the count and the ref. -/
def GetCurrent (headRef : String) (openReviews : List Review) :
    Except String (Option Review) :=
  let matchingReviews := openReviews.filter (fun r => r.request.reviewRef == headRef)
  if matchingReviews.isEmpty then .ok none
  else if matchingReviews.length ≠ 1 then
    .error (getCurrentError matchingReviews.length headRef)
  else .ok matchingReviews.head?

/-! ## repository/git.go: the batch content-read parser

`splitBatchCatFileOutput` parses the output of `git cat-file --batch=...`:
a sequence of entries `<name>\n<size>\n<size bytes of content><newlines>`.
The byte stream is a `List Char`; `bufio.Reader.ReadString('\n')` becomes
`readLine`, which also reports whether it hit end-of-input before a
newline. -/

/-- `ReadString('\n')` on a byte stream: the bytes before the first newline,
and the remaining stream after that newline (`none` when the stream ended
before a newline was found, Go's `io.EOF`). -/
def readLine : List Char → List Char × Option (List Char)
  | [] => ([], none)
  | c :: cs =>
      if c = '\n' then ([], some cs)
      else
        let r := readLine cs
        (c :: r.1, r.2)

theorem readLine_lt : ∀ (l line rest : List Char),
    readLine l = (line, some rest) → rest.length < l.length := by
  intro l
  induction l with
  | nil => intro line rest h; simp [readLine] at h
  | cons c cs ih =>
      intro line rest h
      rw [readLine] at h
      by_cases hc : c = '\n'
      · simp [hc] at h
        rcases h with ⟨h1, h2⟩
        subst h2
        simp
      · simp [hc] at h
        cases hr : readLine cs with
        | mk l2 o2 =>
            rw [hr] at h
            simp at h
            have := ih l2 rest (by rw [hr, h.2])
            simp
            omega

/-- `splitBatchCatFileOutput` (git.go), returning the entries in input
order (the Go code stores them in a map).  End-of-input while reading a
name line ends the parse successfully; end-of-input before the size line's
newline, or a size line that is not a valid integer, is a parse error (a
negative parsed size makes the Go code panic in `make`).  The content read
loop reads until the declared size is satisfied or the input ends; when the
input ends first, the zero-padded buffer is stored and the accumulated map
is returned with a nil error.  After a full content read, newline bytes are
skipped and parsing resumes. -/
def splitBatchCatFileOutput (input : List Char) :
    Except String (List (String × List Char)) :=
  match h1 : readLine input with
  | (_, none) => .ok []
  | (nameLine, some afterName) =>
      match h2 : readLine afterName with
      | (_, none) => .error "Failure while reading the next object size"
      | (sizeLine, some afterSize) =>
          match goParseInt sizeLine with
          | none => .error "Failure while parsing the next object size"
          | some size =>
              if size < 0 then .error "panic: makeslice: len out of range"
              else
                let sz := size.toNat
                if afterSize.length < sz then
                  .ok [(String.mk nameLine,
                        afterSize ++ List.replicate (sz - afterSize.length) (Char.ofNat 0))]
                else
                  match splitBatchCatFileOutput
                      ((afterSize.drop sz).dropWhile (fun c => c = '\n')) with
                  | .error e => .error e
                  | .ok entries => .ok ((String.mk nameLine, afterSize.take sz) :: entries)
termination_by input.length
decreasing_by
  have ha : afterName.length < input.length := readLine_lt _ _ _ h1
  have hb : afterSize.length < afterName.length := readLine_lt _ _ _ h2
  have hc : ((afterSize.drop size.toNat).dropWhile (fun c => c = '\n')).length
      ≤ afterSize.length := by
    calc ((afterSize.drop size.toNat).dropWhile (fun c => c = '\n')).length
        ≤ (afterSize.drop size.toNat).length := (List.dropWhile_sublist _).length_le
      _ ≤ afterSize.length := by simp
  omega

/-! ## Structure of the forests produced by `loadComments` -/

theorem buildThreadsByHash_children (comments : List (String × Comment)) :
    ∀ acc, (∀ p ∈ acc, (p.2 : CommentThread).children = []) →
      ∀ p ∈ buildThreadsByHash comments acc, (p.2 : CommentThread).children = [] := by
  induction comments with
  | nil => intro acc hacc p hp; exact hacc p hp
  | cons q rest ih =>
      intro acc hacc p hp
      rw [buildThreadsByHash] at hp
      cases hfind : assocFind q.1 acc with
      | some _ =>
          rw [hfind] at hp
          exact ih acc hacc p hp
      | none =>
          rw [hfind] at hp
          refine ih _ ?_ p hp
          intro r hr
          rcases List.mem_append.1 hr with hr | hr
          · exact hacc r hr
          · simp at hr
            subst hr
            rfl

theorem collectRoots_shape (entries : List (String × CommentThread)) :
    ∀ threadsByHash threads,
      (∀ p ∈ entries, (p.2 : CommentThread).children = []) →
      (∀ t ∈ threads, t.children = [] ∧ t.comment.parent = "") →
      ∀ t ∈ collectRoots entries threadsByHash threads,
        t.children = [] ∧ t.comment.parent = "" := by
  induction entries with
  | nil =>
      intro tbh threads _ hth t ht
      rw [collectRoots] at ht
      exact hth t ht
  | cons p rest ih =>
      intro tbh threads hent hth t ht
      rw [collectRoots] at ht
      by_cases hpar : p.2.comment.parent = ""
      · rw [if_pos hpar] at ht
        refine ih tbh _ (fun q hq => hent q (List.mem_cons_of_mem _ hq)) ?_ t ht
        intro u hu
        rcases List.mem_append.1 hu with hu | hu
        · exact hth u hu
        · simp at hu
          subst hu
          exact ⟨hent p (List.mem_cons_self _ _), hpar⟩
      · rw [if_neg hpar] at ht
        have hrest := fun q hq => hent q (List.mem_cons_of_mem _ hq)
        cases hfind : assocFind p.2.comment.parent tbh with
        | some parent =>
            rw [hfind] at ht
            exact ih tbh threads hrest hth t ht
        | none =>
            rw [hfind] at ht
            exact ih tbh threads hrest hth t ht

/-- Every node of a forest built by `loadComments` is a leaf with an empty
`Parent` field: non-root comments are never attached anywhere. -/
theorem loadComments_shape (commentsByHash : List (String × Comment)) :
    ∀ t ∈ loadComments commentsByHash, t.children = [] ∧ t.comment.parent = "" := by
  intro t ht
  have hent := buildThreadsByHash_children commentsByHash [] (by simp)
  exact collectRoots_shape _ _ [] hent (by simp) t ht

theorem commentInForest_iff (c : Comment) (l : List CommentThread) :
    commentInForest c l = true ↔ ∃ t ∈ l, commentInThread c t = true := by
  induction l with
  | nil => simp [commentInForest]
  | cons t rest ih => simp [commentInForest, ih]

/-! ## Helper lemmas about resolution aggregation -/

theorem threadWeight_mem {t : CommentThread} {ts : List CommentThread}
    (h : t ∈ ts) : threadWeight t ≤ forestWeight ts := by
  induction ts with
  | nil => simp at h
  | cons u rest ih =>
      rcases List.mem_cons.1 h with h | h
      · subst h
        simp [forestWeight]
      · have := ih h
        simp [forestWeight]
        omega

theorem forestHasVerdict_mem {t : CommentThread} {ts : List CommentThread}
    (hv : forestHasVerdict ts = false) (h : t ∈ ts) :
    threadHasVerdict t = false := by
  induction ts with
  | nil => simp at h
  | cons u rest ih =>
      rw [forestHasVerdict] at hv
      rcases Bool.or_eq_false_iff.1 hv with ⟨hv1, hv2⟩
      rcases List.mem_cons.1 h with h | h
      · subst h; exact hv1
      · exact ih hv2 h

theorem statusFold_none : ∀ (l : List CommentThread) (b : Bool),
    (∀ t ∈ l, updateResolvedStatus t = none) → statusFold l b false = none := by
  intro l
  induction l with
  | nil => intro b _; simp [statusFold]
  | cons t rest ih =>
      intro b h
      rw [statusFold, h t (List.mem_cons_self _ _)]
      exact ih b fun u hu => h u (List.mem_cons_of_mem _ hu)

theorem updateThreadsStatus_of_all_none {ts : List CommentThread}
    (h : ∀ t ∈ ts, updateResolvedStatus t = none) :
    updateThreadsStatus ts = none := by
  rw [updateThreadsStatus]
  exact statusFold_none _ _ fun t ht =>
    h t ((List.mem_insertionSort tsLess).1 ht)

theorem noVerdict_updateResolvedStatus : ∀ (n : Nat) (t : CommentThread),
    threadWeight t ≤ n → threadHasVerdict t = false →
    updateResolvedStatus t = none := by
  intro n
  induction n with
  | zero =>
      intro t hw _
      rw [threadWeight_eq] at hw
      omega
  | succ n ih =>
      intro t hw hv
      cases t with
      | mk c children r =>
          rw [threadWeight_eq] at hw
          simp at hw
          rw [threadHasVerdict] at hv
          rcases Bool.or_eq_false_iff.1 hv with ⟨hv1, hv2⟩
          have hcr : c.resolved = none := Option.not_isSome_iff_eq_none.1 (by simp [hv1])
          have hch : updateThreadsStatus children = none := by
            refine updateThreadsStatus_of_all_none fun u hu => ?_
            refine ih u ?_ (forestHasVerdict_mem hv2 hu)
            have := threadWeight_mem hu
            omega
          rw [updateResolvedStatus, hch, hcr]

/-! ## Concrete forests used as witnesses and counterexamples -/

/-- C4 witness data: a root with an accepting verdict whose child needs
work. -/
def ex4Child : CommentThread := ⟨⟨"bob", "2", "needs work", "A", some false⟩, [], none⟩

def ex4Root : CommentThread := ⟨⟨"alice", "1", "root", "", some true⟩, [ex4Child], none⟩

/-- C5 witness data: a root with a rejecting verdict whose child accepts. -/
def ex5Child : CommentThread := ⟨⟨"bob", "2", "lgtm", "A", some true⟩, [], none⟩

def ex5Root : CommentThread := ⟨⟨"alice", "1", "fyi", "", some false⟩, [ex5Child], none⟩

/-- C3 counterexample data: a root with no verdict of its own whose child
carries an accepting verdict. -/
def ex3Child : CommentThread := ⟨⟨"bob", "2", "lgtm", "A", some true⟩, [], none⟩

def ex3Root : CommentThread := ⟨⟨"alice", "1", "fyi", "", none⟩, [ex3Child], none⟩

/-- C3 witness data: a single node with no verdict anywhere. -/
def ex3Plain : CommentThread := ⟨⟨"carol", "3", "fyi", "", none⟩, [], none⟩

/-! ## Claims about resolution aggregation -/

/-- C4: for every thread node whose children's presence-aware conjunction
is `false`, `updateResolvedStatus` computes the node's `Resolved` tri-state
as `false`, regardless of the node's own comment verdict. -/
theorem resolvedStatus_of_childAgg_false (t : CommentThread)
    (h : updateThreadsStatus t.children = some false) :
    updateResolvedStatus t = some false := by
  cases t with
  | mk c children r => rw [updateResolvedStatus, h]

theorem resolvedStatus_of_childAgg_false_witness :
    updateThreadsStatus ex4Root.children = some false ∧
      updateResolvedStatus ex4Root = some false := by
  have h : updateThreadsStatus ex4Root.children = some false := by
    simp [updateThreadsStatus, updateResolvedStatus, statusFold,
      List.insertionSort, ex4Root, ex4Child]
  exact ⟨h, resolvedStatus_of_childAgg_false ex4Root h⟩

/-- C5: for every thread node whose children's presence-aware conjunction
is `true`, `updateResolvedStatus` computes the node's `Resolved` as `true`
when the node's own comment verdict is `true`, and as unset when the own
verdict is unset or `false`. -/
theorem resolvedStatus_of_childAgg_true (t : CommentThread)
    (h : updateThreadsStatus t.children = some true) :
    updateResolvedStatus t =
      (match t.comment.resolved with
       | some true => some true
       | _ => none) := by
  cases t with
  | mk c children r => rw [updateResolvedStatus, h]

theorem resolvedStatus_of_childAgg_true_witness :
    updateThreadsStatus ex5Root.children = some true ∧
      updateResolvedStatus ex5Root = none := by
  have h : updateThreadsStatus ex5Root.children = some true := by
    simp [updateThreadsStatus, updateResolvedStatus, statusFold,
      List.insertionSort, ex5Root, ex5Child]
  refine ⟨h, ?_⟩
  have h2 := resolvedStatus_of_childAgg_true ex5Root h
  simpa [ex5Root] using h2

/-- C3, counterexample: the forest-level aggregate can be unset even though
a node of the forest contributes a non-unset verdict — the child of
`ex3Root` carries an accepting verdict, but the root's own comment has
none, so the whole subtree is demoted to unset.  The claimed equivalence
fails. -/
theorem forestAggregate_unset_iff_counterexample :
    ¬ (updateThreadsStatus [ex3Root] = none ↔
        forestHasVerdict [ex3Root] = false) := by
  have h1 : updateThreadsStatus [ex3Root] = none := by
    simp [updateThreadsStatus, updateResolvedStatus, statusFold,
      List.insertionSort, ex3Root, ex3Child]
  have h2 : forestHasVerdict [ex3Root] = true := by decide
  simp [h1, h2]

/-- C3, amended: if no node of the forest (own comment or any descendant's)
contributes a non-unset verdict, the forest-level aggregate is unset.  The
converse direction of the original claim is false (see the
counterexample). -/
theorem forestAggregate_unset_of_noVerdict (ts : List CommentThread)
    (hv : forestHasVerdict ts = false) : updateThreadsStatus ts = none :=
  updateThreadsStatus_of_all_none fun t ht =>
    noVerdict_updateResolvedStatus (threadWeight t) t le_rfl
      (forestHasVerdict_mem hv ht)

theorem forestAggregate_unset_of_noVerdict_witness :
    forestHasVerdict [ex3Plain] = false ∧
      updateThreadsStatus [ex3Plain] = none :=
  ⟨by decide, forestAggregate_unset_of_noVerdict [ex3Plain] (by decide)⟩

/-! ## Claims about thread reconstruction -/

/-- C1 failing input: comment "A" is a root, comment "B" names "A" as its
parent. -/
def ex1A : Comment := ⟨"alice", "1", "first", "", some true⟩

def ex1B : Comment := ⟨"bob", "2", "reply", "A", some false⟩

def ex1Input : List (String × Comment) := [("A", ex1A), ("B", ex1B)]

/-- C1: the code drops the child.  On a collection where comment "B" names
the present comment "A" as its parent, `loadComments` returns a forest
holding only the node for "A", with an empty child list: the attachment of
"B" mutated a discarded copy of the parent node, so it is visible nowhere.
The claim (and the code's own description of building "tree-structured
comment threads") requires "B" to appear as a child of "A"'s node. -/
theorem loadComments_drops_attached_child :
    loadComments ex1Input = [⟨ex1A, [], none⟩] ∧
      commentInForest ex1B (loadComments ex1Input) = false := by
  constructor
  · rfl
  · decide

/-- C6: a comment whose `Parent` names an identity that is not a key of the
collection appears nowhere in the reconstructed forest — every produced
root has an empty `Parent` and no children, so a comment with a nonempty
`Parent` labels no node. -/
theorem orphan_not_in_forest (commentsByHash : List (String × Comment))
    (hash : String) (c : Comment)
    (hmem : (hash, c) ∈ commentsByHash)
    (hpar : c.parent ≠ "")
    (habsent : assocFind c.parent commentsByHash = none) :
    commentInForest c (loadComments commentsByHash) = false := by
  rw [← Bool.not_eq_true]
  intro hin
  rcases (commentInForest_iff c _).1 hin with ⟨t, ht, hthread⟩
  rcases loadComments_shape commentsByHash t ht with ⟨hch, hroot⟩
  cases t with
  | mk c2 children r =>
      simp at hch
      subst hch
      rw [commentInThread] at hthread
      simp [commentInForest] at hthread
      subst hthread
      exact hpar hroot

/-- C6 witness input: "B"'s parent "Z" is not a key of the collection. -/
def ex6A : Comment := ⟨"alice", "1", "first", "", some true⟩

def ex6B : Comment := ⟨"bob", "2", "reply", "Z", some false⟩

def ex6Input : List (String × Comment) := [("A", ex6A), ("B", ex6B)]

theorem orphan_not_in_forest_witness :
    (("B", ex6B) ∈ ex6Input ∧ ex6B.parent ≠ "" ∧
        assocFind ex6B.parent ex6Input = none) ∧
      commentInForest ex6B (loadComments ex6Input) = false :=
  ⟨⟨by decide, by decide, by decide⟩,
    orphan_not_in_forest ex6Input "B" ex6B (by decide) (by decide) (by decide)⟩

/-! ## Claim about GetCurrent -/

/-- C7: with no open review matching the working ref, `GetCurrent` returns
no result and no error; with exactly one match, that review; with more than
one match, an error naming the match count and the ref string. -/
theorem getCurrent_matches_spec (headRef : String) (openReviews : List Review) :
    (openReviews.filter (fun r => r.request.reviewRef == headRef) = [] →
        GetCurrent headRef openReviews = .ok none) ∧
    ((openReviews.filter (fun r => r.request.reviewRef == headRef)).length = 1 →
        GetCurrent headRef openReviews =
          .ok (openReviews.filter (fun r => r.request.reviewRef == headRef)).head?) ∧
    (1 < (openReviews.filter (fun r => r.request.reviewRef == headRef)).length →
        GetCurrent headRef openReviews =
          .error (getCurrentError
            (openReviews.filter (fun r => r.request.reviewRef == headRef)).length
            headRef)) := by
  refine ⟨?_, ?_, ?_⟩
  · intro h
    simp [GetCurrent, h]
  · intro h
    have hne : (openReviews.filter (fun r => r.request.reviewRef == headRef)).isEmpty = false := by
      cases hm : openReviews.filter (fun r => r.request.reviewRef == headRef) with
      | nil => rw [hm] at h; simp at h
      | cons a l => rfl
    simp [GetCurrent, hne, h]
  · intro h
    have hne : (openReviews.filter (fun r => r.request.reviewRef == headRef)).isEmpty = false := by
      cases hm : openReviews.filter (fun r => r.request.reviewRef == headRef) with
      | nil => rw [hm] at h; simp at h
      | cons a l => rfl
    have hlen : (openReviews.filter (fun r => r.request.reviewRef == headRef)).length ≠ 1 := by
      omega
    simp [GetCurrent, hne, hlen]

def ex7Request : Request := ⟨"refs/heads/feature", "refs/heads/main", "change"⟩

def ex7Review : Review := ⟨"rev1", ex7Request, [], none, false⟩

theorem getCurrent_matches_spec_witness :
    GetCurrent "refs/heads/feature" [] = .ok none ∧
      GetCurrent "refs/heads/feature" [ex7Review] = .ok (some ex7Review) ∧
      GetCurrent "refs/heads/feature" [ex7Review, ex7Review] =
        .error (getCurrentError 2 "refs/heads/feature") :=
  ⟨(getCurrent_matches_spec "refs/heads/feature" []).1 rfl,
    (getCurrent_matches_spec "refs/heads/feature" [ex7Review]).2.1 rfl,
    (getCurrent_matches_spec "refs/heads/feature" [ex7Review, ex7Review]).2.2
      (by decide)⟩

/-! ## Claim about error propagation of the note-reading operations -/

/-- C8, counterexample: a failing store command does not propagate out of
`GetNotes` or `ListNotedRevisions` — both swallow the failure and return
the empty result. -/
theorem notesReadError_propagation_counterexample :
    GetNotes (.error "exit status 1") = [] ∧
      ListNotedRevisions (.error "exit status 1")
        (fun _ => .ok "commit") = [] :=
  ⟨rfl, rfl⟩

/-- C8, amended: when the store reports a failure, reading one revision's
records (`GetNotes`) and listing annotated revisions
(`ListNotedRevisions`) swallow the error and substitute the empty sequence,
with no retry and no error report. -/
theorem notesReadError_swallowed (e : String)
    (catFileType : String → Except String String) :
    GetNotes (.error e) = [] ∧ ListNotedRevisions (.error e) catFileType = [] :=
  ⟨rfl, rfl⟩

/-! ## Claim about timestamp reformatting -/

/-- C9: a timestamp string that parses as a base-10 64-bit integer is
rendered through the date formatter; any other string is returned
unchanged. -/
theorem reformatTimestamp_spec (unixDate : Int → String) (ts : String) :
    (goParseInt ts.toList = none → reformatTimestamp unixDate ts = ts) ∧
    (∀ v : Int, goParseInt ts.toList = some v →
        reformatTimestamp unixDate ts = unixDate v) := by
  constructor
  · intro h
    rw [String.toList] at h
    simp [reformatTimestamp, h]
  · intro v h
    rw [String.toList] at h
    simp [reformatTimestamp, h]

theorem reformatTimestamp_spec_witness :
    reformatTimestamp toString "123" = toString (123 : Int) ∧
      reformatTimestamp toString "12x" = "12x" :=
  ⟨(reformatTimestamp_spec toString "123").2 123 (by decide),
    (reformatTimestamp_spec toString "12x").1 (by decide)⟩

/-! ## Claims about the batch content-read parser -/

/-- Unfolding of one parser iteration once the name and size lines have
been read completely. -/
theorem sbcf_step (input nameLine afterName sizeLine afterSize : List Char)
    (h1 : readLine input = (nameLine, some afterName))
    (h2 : readLine afterName = (sizeLine, some afterSize)) :
    splitBatchCatFileOutput input =
      (match goParseInt sizeLine with
       | none => .error "Failure while parsing the next object size"
       | some size =>
           if size < 0 then .error "panic: makeslice: len out of range"
           else if afterSize.length < size.toNat then
             .ok [(String.mk nameLine,
                   afterSize ++ List.replicate (size.toNat - afterSize.length) (Char.ofNat 0))]
           else
             match splitBatchCatFileOutput
                 ((afterSize.drop size.toNat).dropWhile (fun c => c = '\n')) with
             | .error e => .error e
             | .ok entries =>
                 .ok ((String.mk nameLine, afterSize.take size.toNat) :: entries)) := by
  rw [splitBatchCatFileOutput]
  split
  next x heq =>
    rw [h1] at heq
    simp at heq
  next nl an heq =>
    rw [h1] at heq
    simp at heq
    obtain ⟨rfl, rfl⟩ := heq
    split
    next y heq2 =>
      rw [h2] at heq2
      simp at heq2
    next sl as heq2 =>
      rw [h2] at heq2
      simp at heq2
      obtain ⟨rfl, rfl⟩ := heq2
      rfl

/-- C2 counterexample input: entry name `a`, declared size `5`, but only
two content bytes remain. -/
def ex2Input : List Char := ['a', '\n', '5', '\n', 'x', 'y']

/-- C2, counterexample: on a declared size exceeding the remaining input,
the parser does not fail — it returns success, with the truncated content
zero-padded to the declared length. -/
theorem batchParse_truncation_counterexample :
    splitBatchCatFileOutput ex2Input =
      .ok [("a", ['x', 'y', Char.ofNat 0, Char.ofNat 0, Char.ofNat 0])] := by
  rw [sbcf_step ex2Input ['a'] ['5', '\n', 'x', 'y'] ['5'] ['x', 'y']
    (by decide) (by decide)]
  rfl

/-- C2, amended: a size line that does not parse as an integer is a parse
error; but an entry whose declared (non-negative) size exceeds the
remaining input does not produce a parse error — the parser stores the
remaining bytes zero-padded to the declared length and returns
successfully. -/
theorem batchParse_size_spec
    (input nameLine afterName sizeLine afterSize : List Char)
    (h1 : readLine input = (nameLine, some afterName))
    (h2 : readLine afterName = (sizeLine, some afterSize)) :
    (goParseInt sizeLine = none →
        splitBatchCatFileOutput input =
          .error "Failure while parsing the next object size") ∧
    (∀ size : Int, goParseInt sizeLine = some size → ¬ size < 0 →
        afterSize.length < size.toNat →
        splitBatchCatFileOutput input =
          .ok [(String.mk nameLine,
                afterSize ++ List.replicate (size.toNat - afterSize.length)
                  (Char.ofNat 0))]) := by
  have hstep := sbcf_step input nameLine afterName sizeLine afterSize h1 h2
  constructor
  · intro h
    rw [hstep, h]
  · intro size h hneg hlen
    rw [hstep, h]
    simp only [if_neg hneg, if_pos hlen]

/-- C2 witness input for the invalid-size half: the size line is `q`. -/
def ex2BadSize : List Char := ['a', '\n', 'q', '\n']

/-- C2 witness input for the truncation half: name `b`, declared size `4`,
three content bytes remaining. -/
def ex2Short : List Char := ['b', '\n', '4', '\n', 'x', 'y', 'z']

theorem batchParse_size_spec_witness :
    splitBatchCatFileOutput ex2BadSize =
        .error "Failure while parsing the next object size" ∧
      splitBatchCatFileOutput ex2Short =
        .ok [("b", ['x', 'y', 'z', Char.ofNat 0])] :=
  ⟨(batchParse_size_spec ex2BadSize ['a'] ['q', '\n'] ['q'] []
      (by decide) (by decide)).1 (by decide),
    (batchParse_size_spec ex2Short ['b'] ['4', '\n', 'x', 'y', 'z'] ['4']
      ['x', 'y', 'z'] (by decide) (by decide)).2 4 (by decide) (by decide)
      (by decide)⟩

/-! ## Claim about IsAncestor -/

/-- C10: `IsAncestor` answers `(true, no error)` on success, `(false, no
error)` on a nonzero exit of the external check, and `(false, error)`
exactly for the other failures. -/
theorem isAncestor_outcomes :
    (∀ o e : String, IsAncestor (.success o e) = (true, none)) ∧
    (∀ o e : String, IsAncestor (.exitError o e) = (false, none)) ∧
    (∀ m : String, IsAncestor (.startError m) =
        (false, some ("Error while trying to determine commit ancestry: " ++ m))) :=
  ⟨fun _ _ => rfl, fun _ _ => rfl, fun _ => rfl⟩
